import Mathlib

/-!
Verification of the text-layout core of fbtextdemo against its
natural-language specification.

The development shallowly embeds the C code of `src/main.c` and
`src/framebuffer.c`:

* `compute_glyph_lines` (main.c:1022-1129) — the greedy line breaker.
  C `int` values are modelled as `Int`.  A `WordGlyphs` input is determined
  by its `x_extent` and its identity (the `word32` pointer); the embedding
  passes the words as a `List Int` of x-extents, and a word's identity is
  its position in that list, so a `GlyphsLine` stores the indices of the
  words placed on it (the C code stores the corresponding `word32`
  pointers).  `space_x` and `line_spacing`, which the C function obtains
  from the font face, are parameters here.
* `compute_init_x_to_center_line` (main.c:1139-1168) — center alignment.
* `face_draw_char_on_fb` (main.c:756-845) — the glyph compositor, modelled
  as the list of `framebuffer_set_pixel` calls it makes plus the advanced
  pen position.  FreeType metrics (in 64ths of a pixel) are inputs.
* `framebuffer_set_pixel` (framebuffer.c:155-166) — modelled on a memory
  state `Int → Nat` (byte at each offset).
* `next_utf8_glyph_length` / `utf8_to_utf32` (main.c:922-1009) — the UTF-8
  decoder; the byte string is a `List Nat` including the terminating 0,
  and an out-of-bounds read of the main loop pointer yields `none`
  (the C behaviour there is undefined).

C division on `int` truncates toward zero, which is `Int.tdiv`.
-/

/-- Boundary rectangle, mirroring `GlyphsBoundary` (main.c:630-635). -/
structure GlyphsBoundary where
  init_x : Int
  init_y : Int
  width : Int
  height : Int
deriving DecidableEq, Repr

/-- A computed line, mirroring `GlyphsLine` (main.c:619-623).  `word32`
holds the indices of the input words placed on the line (the C struct
holds their `UTF32 *` pointers); the C field `word_count` always equals
`word32.length` and is not duplicated here. -/
structure GlyphsLine where
  word32 : List Nat
  y_position : Int
deriving DecidableEq, Repr

/-- The local state of the loop of `compute_glyph_lines`
(main.c:1032-1065): the pen position, the words accumulated for the line
being built, the closed lines, and the height-overflow flag. -/
structure LBState where
  curr_x : Int
  curr_y : Int
  words_in_curr_line : List Nat
  glyph_lines : List GlyphsLine
  height_is_overflowed : Bool
deriving Repr

/-- One iteration of the word loop of `compute_glyph_lines`
(main.c:1067-1110) for the word of index `i` and x-extent `w`:
the height check (line 1075), the wrap test `curr_x + advance >
glyphs_boundary.width && curr_line_word_count > 0` (lines 1086-1087,
note: `glyphs_boundary.width` alone, `init_x` is not added), and the
placement of the word (lines 1107-1109). -/
def lb_step (b : GlyphsBoundary) (space_x line_spacing : Int) (i : Nat)
    (w : Int) (s : LBState) : LBState :=
  let advance := w + space_x
  if s.curr_y + line_spacing ≥ b.init_y + b.height then
    { s with height_is_overflowed := true }
  else
    let s' :=
      if s.curr_x + advance > b.width ∧ s.words_in_curr_line.length > 0 then
        { s with curr_x := b.init_x
               , curr_y := s.curr_y + line_spacing
               , words_in_curr_line := ([] : List Nat)
               , glyph_lines :=
                   s.glyph_lines ++ [⟨s.words_in_curr_line, s.curr_y⟩] }
      else s
    { s' with words_in_curr_line := s'.words_in_curr_line ++ [i]
            , curr_x := s'.curr_x + advance }

/-- The word loop of `compute_glyph_lines` (main.c:1067-1110); `i` is the
index of the first word of `ws`.  The loop `break` on height overflow
(line 1081) is modelled by stopping as soon as the flag is set. -/
def lb_run (b : GlyphsBoundary) (space_x line_spacing : Int) :
    Nat → List Int → LBState → LBState
  | _, [], s => s
  | i, w :: rest, s =>
    let s' := lb_step b space_x line_spacing i w s
    if s'.height_is_overflowed then s'
    else lb_run b space_x line_spacing (i + 1) rest s'

/-- Initial loop state of `compute_glyph_lines` (main.c:1032-1065). -/
def lb_init (b : GlyphsBoundary) : LBState :=
  { curr_x := b.init_x
  , curr_y := b.init_y
  , words_in_curr_line := []
  , glyph_lines := []
  , height_is_overflowed := false }

/-- Embeds `compute_glyph_lines` (main.c:1022-1129): run the word loop, then, if
the height was never overflowed, flush the in-progress line
(main.c:1113-1118); on overflow the in-progress words are discarded
(main.c:1120). -/
def compute_glyph_lines (b : GlyphsBoundary) (space_x line_spacing : Int)
    (ws : List Int) : List GlyphsLine :=
  let s := lb_run b space_x line_spacing 0 ws (lb_init b)
  if s.height_is_overflowed then s.glyph_lines
  else s.glyph_lines ++ [⟨s.words_in_curr_line, s.curr_y⟩]

/-- The line breaker as claim C1's words describe it: identical to
`compute_glyph_lines` except that the wrap test compares
`curr_x + advance` against `boundary.originX + boundary.width`.
Used only to compare the claim's wording with the code. -/
def lb_step_claimC1 (b : GlyphsBoundary) (space_x line_spacing : Int)
    (i : Nat) (w : Int) (s : LBState) : LBState :=
  let advance := w + space_x
  if s.curr_y + line_spacing ≥ b.init_y + b.height then
    { s with height_is_overflowed := true }
  else
    let s' :=
      if s.curr_x + advance > b.init_x + b.width ∧
          s.words_in_curr_line.length > 0 then
        { s with curr_x := b.init_x
               , curr_y := s.curr_y + line_spacing
               , words_in_curr_line := ([] : List Nat)
               , glyph_lines :=
                   s.glyph_lines ++ [⟨s.words_in_curr_line, s.curr_y⟩] }
      else s
    { s' with words_in_curr_line := s'.words_in_curr_line ++ [i]
            , curr_x := s'.curr_x + advance }

/-- The word loop with claim C1's wrap threshold. -/
def lb_run_claimC1 (b : GlyphsBoundary) (space_x line_spacing : Int) :
    Nat → List Int → LBState → LBState
  | _, [], s => s
  | i, w :: rest, s =>
    let s' := lb_step_claimC1 b space_x line_spacing i w s
    if s'.height_is_overflowed then s'
    else lb_run_claimC1 b space_x line_spacing (i + 1) rest s'

/-- The line breaker with claim C1's wrap threshold `originX + width`. -/
def compute_glyph_lines_claimC1 (b : GlyphsBoundary)
    (space_x line_spacing : Int) (ws : List Int) : List GlyphsLine :=
  let s := lb_run_claimC1 b space_x line_spacing 0 ws (lb_init b)
  if s.height_is_overflowed then s.glyph_lines
  else s.glyph_lines ++ [⟨s.words_in_curr_line, s.curr_y⟩]

example :
    compute_glyph_lines ⟨50, 0, 100, 1000⟩ 10 10 [45, 35] =
      [⟨[0], 0⟩, ⟨[1], 10⟩] := by decide

example :
    compute_glyph_lines_claimC1 ⟨50, 0, 100, 1000⟩ 10 10 [45, 35] =
      [⟨[0, 1], 0⟩] := by decide

example :
    compute_glyph_lines ⟨0, 0, 100, 30⟩ 10 20 [50, 50] =
      [⟨[0], 0⟩, ⟨[1], 20⟩] := by decide

example :
    compute_glyph_lines ⟨0, 0, 100, 1000⟩ 10 10 [45, 45, 45] =
      [⟨[0], 0⟩, ⟨[1], 10⟩, ⟨[2], 20⟩] := by decide

example : compute_glyph_lines ⟨0, 0, 100, 1000⟩ 10 10 [40, 40, 40] =
      [⟨[0, 1], 0⟩, ⟨[2], 10⟩] := by decide

/-- Embeds `compute_init_x_to_center_line` (main.c:1139-1168).  `space_x` is the
width of the space glyph the C code measures at lines 1142-1144;
`word_widths` are the per-word x-extents that `face_get_string_extent`
reports for the line's words at line 1158.  The C code starts
`line_width` at 0, adds `(word_count - 1) * space_x` (line 1150) and then
adds the word widths in order (lines 1153-1160); `/` on C `int` truncates
toward zero, hence `Int.tdiv`. -/
def compute_init_x_to_center_line (space_x : Int) (word_widths : List Int)
    (b : GlyphsBoundary) : Int :=
  let word_count : Int := (word_widths.length : Int)
  let line_width : Int := word_widths.foldl (· + ·) ((word_count - 1) * space_x)
  let middle_x := b.width.tdiv 2
  let middle_line := line_width.tdiv 2
  (middle_x - middle_line) + b.init_x

example : compute_init_x_to_center_line 10 [30, 40] ⟨5, 0, 100, 50⟩ = 15 := by
  decide

/-- The glyph bitmap rendered by FreeType: `face->glyph->bitmap` as used in
main.c:825-842.  `buffer` gives the byte stored at each memory index. -/
structure GlyphBitmap where
  rows : Nat
  width : Nat
  pitch : Nat
  buffer : Nat → Nat

/-- The loaded glyph's metrics as read by `face_draw_char_on_fb`
(main.c:795-810), in FreeType 64ths-of-a-pixel units, plus the rendered
bitmap. -/
structure FaceGlyph where
  bbox_yMax : Int
  horiBearingY : Int
  metrics_width : Int
  horiAdvance : Int
  bitmap : GlyphBitmap

/-- A call to `framebuffer_set_pixel` recorded by the compositor. -/
structure PixelWrite where
  x : Int
  y : Int
  r : Nat
  g : Nat
  b : Nat
deriving DecidableEq, Repr

/-- Embeds `face_draw_char_on_fb` (main.c:756-845), modelled as the list of
`framebuffer_set_pixel` calls it makes, in loop order, together with the
new pen x position `*x + advance` (line 844).  Mirrors the offset
computations of lines 795-810 and the double loop of lines 825-842: the
byte at `i * pitch + j` is read (line 833) and, when nonzero, a pixel is
written at `(*x + j + x_off, y + i + y_off)` with that byte on all three
channels (line 840). -/
def face_draw_char_on_fb (g : FaceGlyph) (x y : Int) :
    List PixelWrite × Int :=
  let bbox_ymax := g.bbox_yMax.tdiv 64
  let y_off := bbox_ymax - g.horiBearingY.tdiv 64
  let glyph_width := g.metrics_width.tdiv 64
  let advance := g.horiAdvance.tdiv 64
  let x_off := (advance - glyph_width).tdiv 2
  let writes :=
    (List.range g.bitmap.rows).flatMap (fun i =>
      (List.range g.bitmap.width).filterMap (fun j =>
        let p := g.bitmap.buffer (i * g.bitmap.pitch + j)
        if p ≠ 0 then
          some ⟨x + (j : Int) + x_off, y + (i : Int) + y_off, p, p, p⟩
        else none))
  (writes, x + advance)

/-- The framebuffer as seen by `framebuffer_set_pixel`
(framebuffer.c:43-55, 155-166): the surface size, bytes per pixel, the
per-row slop, and the mapped memory `fb_data` as the byte stored at each
offset. -/
structure FrameBuffer where
  w : Int
  h : Int
  fb_bytes : Int
  slop : Int
  fb_data : Int → Nat

/-- Embeds `framebuffer_set_pixel` (framebuffer.c:155-166): inside the bounds
check `x > 0 && x < w && y > 0 && y < h` it writes the four bytes
b, g, r, 0 starting at `index32 = (y * w + x) * fb_bytes + y * slop`;
otherwise it does nothing. -/
def framebuffer_set_pixel (fb : FrameBuffer) (x y : Int) (r g b : Nat) :
    FrameBuffer :=
  if x > 0 ∧ x < fb.w ∧ y > 0 ∧ y < fb.h then
    let index32 := (y * fb.w + x) * fb.fb_bytes + y * fb.slop
    { fb with fb_data := fun idx =>
        if idx = index32 then b
        else if idx = index32 + 1 then g
        else if idx = index32 + 2 then r
        else if idx = index32 + 3 then 0
        else fb.fb_data idx }
  else fb

/-- Embeds `next_utf8_glyph_length` (main.c:922-944): the length of the next
UTF-8 sequence from its leading byte, or -1 if the byte is not a valid
leading byte. -/
def next_utf8_glyph_length (b : Nat) : Int :=
  if b &&& 0x80 = 0 then 1
  else if b &&& 0xE0 = 0xC0 then 2
  else if b &&& 0xF0 = 0xE0 then 3
  else if b &&& 0xF8 = 0xF0 then 4
  else -1

/-- One step of the pointer of the length-counting loop of `utf8_to_utf32`
(main.c:967-971): the loop advances `utf8_word_ptr` by
`next_utf8_glyph_length(utf8_word_ptr)` bytes.  `s` is the byte string
(terminating 0 included) and `p` the current byte offset; a read outside
`s` is undefined in C, so the byte is only meaningful for `0 ≤ p <
s.length`. -/
def utf8_scan_step (s : List Nat) (p : Int) : Int :=
  p + next_utf8_glyph_length (s.getD p.toNat 0)

/-- The conversion loop of `utf8_to_utf32` (main.c:979-1003), with fuel.
Returns `none` when the loop pointer leaves the byte string (the C
behaviour there is undefined: the pointer arithmetic and the read are out
of bounds) or when the fuel runs out (the loop did not terminate within
`fuel` iterations).  Continuation-byte reads past the terminator are
modelled as 0.  When `next_utf8_glyph_length` is -1 the C code leaves
`*utf32_word_ptr` unwritten (indeterminate); the model emits 0 there,
which no theorem below relies on. -/
def utf8_to_utf32_go (s : List Nat) : Nat → Int → List Nat → Option (List Nat)
  | 0, _, _ => none
  | fuel + 1, p, acc =>
    if p < 0 ∨ (s.length : Int) ≤ p then none
    else
      let b := s.getD p.toNat 0
      if b = 0 then some acc
      else
        let len := next_utf8_glyph_length b
        let cp : Nat :=
          if len = 1 then b
          else if len = 2 then
            ((b &&& 0x1F) <<< 6) ||| (s.getD (p.toNat + 1) 0 &&& 0x3F)
          else if len = 3 then
            ((b &&& 0x0F) <<< 12) ||| ((s.getD (p.toNat + 1) 0 &&& 0x3F) <<< 6)
              ||| (s.getD (p.toNat + 2) 0 &&& 0x3F)
          else if len = 4 then
            ((b &&& 0x07) <<< 18) ||| ((s.getD (p.toNat + 1) 0 &&& 0x3F) <<< 12)
              ||| ((s.getD (p.toNat + 2) 0 &&& 0x3F) <<< 6)
              ||| (s.getD (p.toNat + 3) 0 &&& 0x3F)
          else 0
        utf8_to_utf32_go s fuel (p + len) (acc ++ [cp])

/-- Embeds `utf8_to_utf32` (main.c:959-1009) on a byte string `s` that includes
its terminating 0: the sequence of decoded codepoints, or `none` if the
loop read out of bounds or failed to terminate within `s.length + 1`
iterations (each well-formed iteration consumes at least one byte, so the
fuel is not a restriction on well-formed input). -/
def utf8_to_utf32 (s : List Nat) : Option (List Nat) :=
  utf8_to_utf32_go s (s.length + 1) 0 []

/-- The standard 4-byte UTF-8 encoding of a Unicode scalar value
`c ≥ U+10000`, as named by claim C8 ("that scalar's 4-byte UTF-8
encoding"): `11110xxx 10xxxxxx 10xxxxxx 10xxxxxx`. -/
def utf8_encode4 (c : Nat) : List Nat :=
  [ 0xF0 ||| (c >>> 18)
  , 0x80 ||| ((c >>> 12) &&& 0x3F)
  , 0x80 ||| ((c >>> 6) &&& 0x3F)
  , 0x80 ||| (c &&& 0x3F) ]

example : utf8_to_utf32 (utf8_encode4 0x1F600 ++ [0]) = some [0x1F600] := by
  decide

example : utf8_to_utf32 [0x41, 0xC3, 0xA9, 0] = some [0x41, 0xE9] := by
  decide

example : utf8_to_utf32 [0x80, 0] = none := by decide

example : next_utf8_glyph_length 0x80 = -1 := by decide

/-! ## Shared helper lemmas -/

theorem foldl_add_eq_add_sum (l : List Int) (a : Int) :
    l.foldl (· + ·) a = a + l.sum := by
  induction l generalizing a with
  | nil => simp
  | cons x xs ih => simp [ih, add_assoc]

/-! ## Claims about the line breaker -/

/-- C1 (counterexample): with a boundary whose `init_x` is 50 and whose
`width` is 100, the second word has `curr_x + advance = 150`, which does
not exceed `init_x + width = 150`, so by the claim's threshold it stays on
the first line; the code compares against `width = 100` alone and wraps,
so the claim's threshold and the code disagree on this input. -/
theorem compute_glyph_lines_threshold_cex :
    compute_glyph_lines ⟨50, 0, 100, 1000⟩ 10 10 [45, 35] =
      [⟨[0], 0⟩, ⟨[1], 10⟩] ∧
    compute_glyph_lines_claimC1 ⟨50, 0, 100, 1000⟩ 10 10 [45, 35] =
      [⟨[0, 1], 0⟩] ∧
    compute_glyph_lines ⟨50, 0, 100, 1000⟩ 10 10 [45, 35] ≠
      compute_glyph_lines_claimC1 ⟨50, 0, 100, 1000⟩ 10 10 [45, 35] := by
  decide

/-- C1 (amended): one loop iteration of `compute_glyph_lines` closes the
line in progress (the closed-line count grows by one) exactly when the
height bound admits the current line, `currentX + (word.width +
spaceWidth)` strictly exceeds `boundary.width` — the width alone, with no
`originX` added — and the line in progress already holds at least one
word.  In particular a word for which `currentX + advance` equals
`boundary.width` stays on the current line. -/
theorem lb_step_closes_line_iff (b : GlyphsBoundary)
    (space_x line_spacing : Int) (i : Nat) (w : Int) (s : LBState) :
    (lb_step b space_x line_spacing i w s).glyph_lines.length =
        s.glyph_lines.length + 1 ↔
      (s.curr_y + line_spacing < b.init_y + b.height ∧
        b.width < s.curr_x + (w + space_x) ∧
        s.words_in_curr_line ≠ []) := by
  unfold lb_step
  by_cases hh : s.curr_y + line_spacing ≥ b.init_y + b.height
  · rw [if_pos hh]
    show s.glyph_lines.length = s.glyph_lines.length + 1 ↔ _
    constructor
    · intro h
      omega
    · rintro ⟨h1, -, -⟩
      omega
  · rw [if_neg hh]
    by_cases hw : s.curr_x + (w + space_x) > b.width ∧
        s.words_in_curr_line.length > 0
    · rw [if_pos hw]
      show (s.glyph_lines ++
          [(⟨s.words_in_curr_line, s.curr_y⟩ : GlyphsLine)]).length =
          s.glyph_lines.length + 1 ↔ _
      simp only [List.length_append, List.length_cons, List.length_nil]
      constructor
      · intro _
        exact ⟨by omega, hw.1, List.ne_nil_of_length_pos hw.2⟩
      · intro _
        trivial
    · rw [if_neg hw]
      show s.glyph_lines.length = s.glyph_lines.length + 1 ↔ _
      constructor
      · intro h
        omega
      · rintro ⟨h1, h2, h3⟩
        exact absurd ⟨h2, List.length_pos.mpr h3⟩ hw

/-- C2: the failing input evaluated on the code.  Boundary height 30,
line spacing 20, `originY` 0, two words of width 50 with space width 10:
the second word wraps onto a fresh line during the last loop iteration,
so the height check never runs again and the final flush emits a second
line at `y = 20`, whose `y + lineSpacing = 40` reaches past
`originY + height = 30`, and the output is not a single line. -/
theorem compute_glyph_lines_height_overflow_bug :
    compute_glyph_lines ⟨0, 0, 100, 30⟩ 10 20 [50, 50] =
      [⟨[0], 0⟩, ⟨[1], 20⟩] ∧
    ((compute_glyph_lines ⟨0, 0, 100, 30⟩ 10 20 [50, 50]).getD 1
        ⟨[], 0⟩).y_position + 20 ≥ (0 : Int) + 30 ∧
    (compute_glyph_lines ⟨0, 0, 100, 30⟩ 10 20 [50, 50]).length ≠ 1 := by
  decide

/-- C10: on an empty word list the loop body never runs, the height flag
stays false, and the final flush emits exactly one line, holding no words,
at `y_position = boundary.init_y`. -/
theorem compute_glyph_lines_empty_words (b : GlyphsBoundary)
    (space_x line_spacing : Int)
    (_h : b.init_y + line_spacing < b.init_y + b.height) :
    compute_glyph_lines b space_x line_spacing [] = [⟨[], b.init_y⟩] := rfl

theorem compute_glyph_lines_empty_words_witness :
    (0 : Int) + 5 < (0 : Int) + 30 ∧
    compute_glyph_lines ⟨0, 0, 50, 30⟩ 7 5 [] = [⟨[], 0⟩] :=
  ⟨by decide, compute_glyph_lines_empty_words ⟨0, 0, 50, 30⟩ 7 5 (by decide)⟩

/-! ## Claims about the line aligner -/

/-- C5: for a non-empty line, the centering start offset computed by
`compute_init_x_to_center_line` equals
`boundary.originX + boundary.width/2 - lineWidth/2` with
`lineWidth = sum of the word widths + (wordCount - 1) * spaceWidth`,
all divisions truncating toward zero (`Int.tdiv`).  A single-word line is
the case `wordCount = 1`, where `lineWidth` is that word's own width. -/
theorem compute_init_x_to_center_line_eq (space_x : Int) (ws : List Int)
    (b : GlyphsBoundary) (_h : ws ≠ []) :
    compute_init_x_to_center_line space_x ws b =
      b.init_x + b.width.tdiv 2 -
        (ws.sum + ((ws.length : Int) - 1) * space_x).tdiv 2 := by
  have h1 : ((ws.length : Int) - 1) * space_x + ws.sum =
      ws.sum + ((ws.length : Int) - 1) * space_x := add_comm _ _
  simp only [compute_init_x_to_center_line, foldl_add_eq_add_sum, h1]
  ring

theorem compute_init_x_to_center_line_eq_witness :
    ([30, 40] : List Int) ≠ [] ∧
    compute_init_x_to_center_line 10 [30, 40] ⟨5, 0, 100, 50⟩ =
      (5 : Int) + (100 : Int).tdiv 2 -
        (([30, 40] : List Int).sum +
          (((([30, 40] : List Int).length) : Int) - 1) * 10).tdiv 2 :=
  ⟨by decide,
   compute_init_x_to_center_line_eq 10 [30, 40] ⟨5, 0, 100, 50⟩ (by decide)⟩

/-! ## Claims about the UTF-8 decoder -/

/-- C7: on the invalid leading byte 0x80 the code returns the sentinel
length -1, and the decode loops advance their byte pointer by -1 — one
byte backwards, out of the buffer — instead of consuming the byte as a
one-byte-wide invalid codepoint; the modelled decoder accordingly ends in
the undefined out-of-bounds state (`none`) rather than producing a
replacement marker. -/
theorem utf8_invalid_lead_byte_bug :
    next_utf8_glyph_length 0x80 = -1 ∧
    utf8_scan_step [0x80, 0] 0 = -1 ∧
    utf8_to_utf32 [0x80, 0] = none := by
  decide

/-! ## Claims about the glyph compositor -/

/-- C4: the pixels written by `face_draw_char_on_fb` at pen position
`(x, y)` are exactly those at `(x + j + xOffset, y + i + yOffset)` for the
bitmap cells `(i, j)` (read at buffer index `i * pitch + j`) whose
coverage byte is nonzero, carrying that byte on all three colour
channels, with `yOffset = bboxYMax - bearingY` and
`xOffset = (advance - glyphWidth) / 2` in pixel units; and the pen
advances by exactly the glyph's advance. -/
theorem face_draw_char_on_fb_spec (g : FaceGlyph) (x y : Int) :
    (face_draw_char_on_fb g x y).2 = x + g.horiAdvance.tdiv 64 ∧
    ∀ pw : PixelWrite,
      pw ∈ (face_draw_char_on_fb g x y).1 ↔
        ∃ i j : Nat, i < g.bitmap.rows ∧ j < g.bitmap.width ∧
          g.bitmap.buffer (i * g.bitmap.pitch + j) ≠ 0 ∧
          pw = ⟨ x + (j : Int) +
                   (g.horiAdvance.tdiv 64 - g.metrics_width.tdiv 64).tdiv 2
               , y + (i : Int) +
                   (g.bbox_yMax.tdiv 64 - g.horiBearingY.tdiv 64)
               , g.bitmap.buffer (i * g.bitmap.pitch + j)
               , g.bitmap.buffer (i * g.bitmap.pitch + j)
               , g.bitmap.buffer (i * g.bitmap.pitch + j) ⟩ := by
  refine ⟨rfl, fun pw => ?_⟩
  unfold face_draw_char_on_fb
  simp only [List.mem_flatMap, List.mem_filterMap, List.mem_range]
  constructor
  · rintro ⟨i, hi, j, hj, hpw⟩
    by_cases hp : g.bitmap.buffer (i * g.bitmap.pitch + j) ≠ 0
    · rw [if_pos hp] at hpw
      exact ⟨i, j, hi, hj, hp, (Option.some_inj.mp hpw).symm⟩
    · rw [if_neg hp] at hpw
      cases hpw
  · rintro ⟨i, j, hi, hj, hp, rfl⟩
    exact ⟨i, hi, j, hj, by rw [if_pos hp]⟩

/-! ## Claims about the pixel sink -/

/-- Helper: inside the bounds check, `framebuffer_set_pixel` changes no
byte outside the four bytes it writes at
`index32 = (y * w + x) * fb_bytes + y * slop`. -/
theorem framebuffer_set_pixel_outside_span (fb : FrameBuffer) (x y : Int)
    (r g b : Nat) (idx : Int)
    (h : x > 0 ∧ x < fb.w ∧ y > 0 ∧ y < fb.h)
    (hidx : idx < (y * fb.w + x) * fb.fb_bytes + y * fb.slop ∨
      (y * fb.w + x) * fb.fb_bytes + y * fb.slop + 4 ≤ idx) :
    (framebuffer_set_pixel fb x y r g b).fb_data idx = fb.fb_data idx := by
  unfold framebuffer_set_pixel
  rw [if_pos h]
  show (fun idx => if idx = (y * fb.w + x) * fb.fb_bytes + y * fb.slop then b
      else if idx = (y * fb.w + x) * fb.fb_bytes + y * fb.slop + 1 then g
      else if idx = (y * fb.w + x) * fb.fb_bytes + y * fb.slop + 2 then r
      else if idx = (y * fb.w + x) * fb.fb_bytes + y * fb.slop + 3 then 0
      else fb.fb_data idx) idx = fb.fb_data idx
  have h0 : idx ≠ (y * fb.w + x) * fb.fb_bytes + y * fb.slop := by omega
  have h1 : idx ≠ (y * fb.w + x) * fb.fb_bytes + y * fb.slop + 1 := by omega
  have h2 : idx ≠ (y * fb.w + x) * fb.fb_bytes + y * fb.slop + 2 := by omega
  have h3 : idx ≠ (y * fb.w + x) * fb.fb_bytes + y * fb.slop + 3 := by omega
  simp only [if_neg h0, if_neg h1, if_neg h2, if_neg h3]

/-- C9: `framebuffer_set_pixel` leaves the framebuffer entirely unchanged
unless `x > 0 ∧ x < w ∧ y > 0 ∧ y < h` (so requests outside the surface
are silently discarded, and the strict lower bounds also discard the
first row `y = 0` and first column `x = 0`); when the condition holds it
changes no byte outside the four bytes of the addressed pixel, and in the
32-bits-per-pixel layout (`fb_bytes = 4`, the layout this implementation
assumes) every other pixel of the surface keeps all four of its bytes. -/
theorem framebuffer_set_pixel_bounds (fb : FrameBuffer) (x y : Int)
    (r g b : Nat) :
    (¬(x > 0 ∧ x < fb.w ∧ y > 0 ∧ y < fb.h) →
      framebuffer_set_pixel fb x y r g b = fb) ∧
    ((x > 0 ∧ x < fb.w ∧ y > 0 ∧ y < fb.h) →
      ∀ idx : Int,
        (idx < (y * fb.w + x) * fb.fb_bytes + y * fb.slop ∨
          (y * fb.w + x) * fb.fb_bytes + y * fb.slop + 4 ≤ idx) →
        (framebuffer_set_pixel fb x y r g b).fb_data idx = fb.fb_data idx) ∧
    (fb.fb_bytes = 4 → 0 ≤ fb.slop →
      (x > 0 ∧ x < fb.w ∧ y > 0 ∧ y < fb.h) →
      ∀ x' y' k : Int, 0 ≤ x' → x' < fb.w → 0 ≤ y' → y' < fb.h →
        (x' ≠ x ∨ y' ≠ y) → 0 ≤ k → k < 4 →
        (framebuffer_set_pixel fb x y r g b).fb_data
            ((y' * fb.w + x') * 4 + y' * fb.slop + k) =
          fb.fb_data ((y' * fb.w + x') * 4 + y' * fb.slop + k)) := by
  refine ⟨?_, ?_, ?_⟩
  · intro h
    unfold framebuffer_set_pixel
    rw [if_neg h]
  · intro h idx hidx
    exact framebuffer_set_pixel_outside_span fb x y r g b idx h hidx
  · intro hb4 hslop h x' y' k hx0 hxw hy0 hyh hne hk0 hk4
    apply framebuffer_set_pixel_outside_span fb x y r g b _ h
    rw [hb4]
    obtain ⟨hx1, hx2, hy1, hy2⟩ := h
    rcases lt_trichotomy y' y with hy | hy | hy
    · left
      have hw1 : y' * fb.w ≤ (y - 1) * fb.w :=
        mul_le_mul_of_nonneg_right (by omega) (by omega)
      have hs1 : y' * fb.slop ≤ y * fb.slop :=
        mul_le_mul_of_nonneg_right (by omega) hslop
      nlinarith [hw1, hs1]
    · subst hy
      have hxx : x' ≠ x := by
        rcases hne with h' | h'
        · exact h'
        · exact absurd rfl h'
      rcases lt_or_gt_of_ne hxx with hx | hx
      · left
        nlinarith
      · right
        nlinarith
    · right
      have hw1 : (y + 1) * fb.w ≤ y' * fb.w :=
        mul_le_mul_of_nonneg_right (by omega) (by omega)
      have hs1 : y * fb.slop ≤ y' * fb.slop :=
        mul_le_mul_of_nonneg_right (by omega) hslop
      nlinarith [hw1, hs1]

/-- Concrete framebuffer used by the witness below: a 4x4 surface at 4
bytes per pixel, no slop, every byte holding 7. -/
def fb_example : FrameBuffer := ⟨4, 4, 4, 0, fun _ => 7⟩

theorem framebuffer_set_pixel_bounds_witness :
    framebuffer_set_pixel fb_example 0 2 9 8 7 = fb_example ∧
    (framebuffer_set_pixel fb_example 1 1 9 8 7).fb_data 0 =
      fb_example.fb_data 0 ∧
    (framebuffer_set_pixel fb_example 1 1 9 8 7).fb_data
        ((2 * fb_example.w + 2) * 4 + 2 * fb_example.slop + 0) =
      fb_example.fb_data ((2 * fb_example.w + 2) * 4 + 2 * fb_example.slop + 0) :=
  ⟨(framebuffer_set_pixel_bounds fb_example 0 2 9 8 7).1 (by decide),
   (framebuffer_set_pixel_bounds fb_example 1 1 9 8 7).2.1 (by decide) 0
     (by decide),
   (framebuffer_set_pixel_bounds fb_example 1 1 9 8 7).2.2 rfl (by decide)
     (by decide) 2 2 0 (by decide) (by decide) (by decide) (by decide)
     (by decide) (by decide) (by decide)⟩

/-! ## Inductive facts about the line-breaker loop -/

/-- Case analysis of one loop iteration: height stop, wrap-and-place, or
plain place, with the resulting state written out. -/
theorem lb_step_cases (b : GlyphsBoundary) (space_x line_spacing : Int)
    (i : Nat) (w : Int) (s : LBState) :
    (s.curr_y + line_spacing ≥ b.init_y + b.height ∧
      lb_step b space_x line_spacing i w s =
        { s with height_is_overflowed := true }) ∨
    (¬(s.curr_y + line_spacing ≥ b.init_y + b.height) ∧
      (s.curr_x + (w + space_x) > b.width ∧
        s.words_in_curr_line.length > 0) ∧
      lb_step b space_x line_spacing i w s =
        { curr_x := b.init_x + (w + space_x)
        , curr_y := s.curr_y + line_spacing
        , words_in_curr_line := [i]
        , glyph_lines := s.glyph_lines ++ [⟨s.words_in_curr_line, s.curr_y⟩]
        , height_is_overflowed := s.height_is_overflowed }) ∨
    (¬(s.curr_y + line_spacing ≥ b.init_y + b.height) ∧
      ¬(s.curr_x + (w + space_x) > b.width ∧
          s.words_in_curr_line.length > 0) ∧
      lb_step b space_x line_spacing i w s =
        { s with curr_x := s.curr_x + (w + space_x)
               , words_in_curr_line := s.words_in_curr_line ++ [i] }) := by
  unfold lb_step
  by_cases hh : s.curr_y + line_spacing ≥ b.init_y + b.height
  · exact Or.inl ⟨hh, by rw [if_pos hh]⟩
  · by_cases hw : s.curr_x + (w + space_x) > b.width ∧
        s.words_in_curr_line.length > 0
    · refine Or.inr (Or.inl ⟨hh, hw, ?_⟩)
      rw [if_neg hh, if_pos hw]
      rfl
    · exact Or.inr (Or.inr ⟨hh, hw, by rw [if_neg hh, if_neg hw]⟩)

theorem range'_snoc (s n : Nat) :
    List.range' s (n + 1) = List.range' s n ++ [s + n] := by
  rw [List.range'_concat]
  simp

theorem range_append_range' (j m : Nat) :
    List.range j ++ List.range' j m = List.range (j + m) := by
  have h := List.range'_append 0 j m 1
  simp only [one_mul, Nat.zero_add] at h
  rw [List.range_eq_range', List.range_eq_range', Nat.add_comm j m]
  exact h

/-- Loop invariant behind C3: if the closed lines hold exactly the word
indices `0, …, j-1` in order and the line in progress holds exactly
`j, …, i-1` in order, then after running the loop on the words from index
`i` on, the same shape holds for some `j' ≤ i'`. -/
theorem lb_run_flatten_range (b : GlyphsBoundary) (space_x line_spacing : Int) :
    ∀ (ws : List Int) (i j : Nat) (s : LBState),
      j ≤ i →
      (s.glyph_lines.map GlyphsLine.word32).flatten = List.range j →
      s.words_in_curr_line = List.range' j (i - j) →
      ∃ j' i', j' ≤ i' ∧ i' ≤ i + ws.length ∧
        ((lb_run b space_x line_spacing i ws s).glyph_lines.map
            GlyphsLine.word32).flatten = List.range j' ∧
        (lb_run b space_x line_spacing i ws s).words_in_curr_line =
          List.range' j' (i' - j') := by
  intro ws
  induction ws with
  | nil =>
    intro i j s hji h1 h2
    exact ⟨j, i, hji, by simp, h1, h2⟩
  | cons w rest ih =>
    intro i j s hji h1 h2
    have hflat : ((s.glyph_lines ++
        [(⟨s.words_in_curr_line, s.curr_y⟩ : GlyphsLine)]).map
          GlyphsLine.word32).flatten = List.range i := by
      rw [List.map_append, List.flatten_append]
      simp only [List.map_cons, List.map_nil, List.flatten_cons,
        List.flatten_nil, List.append_nil]
      rw [h1, h2]
      rw [range_append_range' j (i - j)]
      congr 1
      omega
    rcases lb_step_cases b space_x line_spacing i w s with
        ⟨hh, heq⟩ | ⟨hh, hw, heq⟩ | ⟨hh, hw, heq⟩
    · rw [lb_run, heq]
      refine ⟨j, i, hji, by omega, h1, h2⟩
    · rw [lb_run, heq]
      by_cases hf : s.height_is_overflowed
      · rw [if_pos hf]
        refine ⟨i, i + 1, by omega, by simp only [List.length_cons]; omega, ?_, ?_⟩
        · exact hflat
        · simp [List.range'_one]
      · rw [if_neg hf]
        obtain ⟨j', i', h3, h4, h5, h6⟩ :=
          ih (i + 1) i
            { curr_x := b.init_x + (w + space_x)
            , curr_y := s.curr_y + line_spacing
            , words_in_curr_line := [i]
            , glyph_lines :=
                s.glyph_lines ++ [⟨s.words_in_curr_line, s.curr_y⟩]
            , height_is_overflowed := s.height_is_overflowed }
            (by omega) hflat (by simp [List.range'_one])
        exact ⟨j', i', h3, by simp only [List.length_cons]; omega, h5, h6⟩
    · rw [lb_run, heq]
      have hwords : s.words_in_curr_line ++ [i] =
          List.range' j ((i + 1) - j) := by
        rw [h2, show (i + 1) - j = (i - j) + 1 by omega, range'_snoc]
        congr 2
        omega
      by_cases hf : s.height_is_overflowed
      · rw [if_pos hf]
        exact ⟨j, i + 1, by omega, by simp only [List.length_cons]; omega, h1, hwords⟩
      · rw [if_neg hf]
        obtain ⟨j', i', h3, h4, h5, h6⟩ :=
          ih (i + 1) j
            { s with curr_x := s.curr_x + (w + space_x)
                   , words_in_curr_line := s.words_in_curr_line ++ [i] }
            (by omega) h1 (by simpa using hwords)
        exact ⟨j', i', h3, by simp only [List.length_cons]; omega, h5, h6⟩

/-- C3: for every boundary and word list, the output lines of
`compute_glyph_lines`, concatenated in order, hold exactly the word
indices `0, 1, …, k-1` for some `k ≤ word count`: every input word lands
in exactly one line or is dropped (with everything after the first
dropped word also dropped, which happens only on height overflow), no
word is split or duplicated, and the input order is preserved within each
line and across lines. -/
theorem compute_glyph_lines_partition (b : GlyphsBoundary)
    (space_x line_spacing : Int) (ws : List Int) :
    ∃ k ≤ ws.length,
      ((compute_glyph_lines b space_x line_spacing ws).map
        GlyphsLine.word32).flatten = List.range k := by
  obtain ⟨j', i', h3, h4, h5, h6⟩ :=
    lb_run_flatten_range b space_x line_spacing ws 0 0 (lb_init b)
      le_rfl (by simp [lb_init]) (by simp [lb_init, List.range'])
  unfold compute_glyph_lines
  by_cases hf : (lb_run b space_x line_spacing 0 ws (lb_init b)).height_is_overflowed
  · rw [if_pos hf]
    exact ⟨j', by omega, h5⟩
  · rw [if_neg hf]
    refine ⟨i', by omega, ?_⟩
    rw [List.map_append, List.flatten_append]
    simp only [List.map_cons, List.map_nil, List.flatten_cons,
      List.flatten_nil, List.append_nil]
    rw [h5, h6, range_append_range' j' (i' - j')]
    congr 1
    omega


/-- Loop invariant behind C6: if the pen `curr_y` sits
`glyph_lines.length` line spacings below `init_y` and every closed line's
`y_position` is `init_y + (its index) * line_spacing`, the same holds
after running the loop. -/
theorem lb_run_y_positions (b : GlyphsBoundary) (space_x line_spacing : Int) :
    ∀ (ws : List Int) (i : Nat) (s : LBState),
      s.curr_y = b.init_y + (s.glyph_lines.length : Int) * line_spacing →
      (∀ (m : Nat) (l : GlyphsLine), s.glyph_lines[m]? = some l →
          l.y_position = b.init_y + (m : Int) * line_spacing) →
      ((lb_run b space_x line_spacing i ws s).curr_y =
        b.init_y +
          ((lb_run b space_x line_spacing i ws s).glyph_lines.length : Int) *
            line_spacing) ∧
      (∀ (m : Nat) (l : GlyphsLine),
          (lb_run b space_x line_spacing i ws s).glyph_lines[m]? = some l →
          l.y_position = b.init_y + (m : Int) * line_spacing) := by
  intro ws
  induction ws with
  | nil =>
    intro i s hy hidx
    exact ⟨hy, hidx⟩
  | cons w rest ih =>
    intro i s hy hidx
    have hidx' : ∀ (m : Nat) (l : GlyphsLine),
        (s.glyph_lines ++
          [(⟨s.words_in_curr_line, s.curr_y⟩ : GlyphsLine)])[m]? = some l →
        l.y_position = b.init_y + (m : Int) * line_spacing := by
      intro m l hm
      have hmlen : m < s.glyph_lines.length + 1 := by
        have h := (List.getElem?_eq_some.mp hm).1
        simpa [List.length_append] using h
      by_cases hcase : m < s.glyph_lines.length
      · rw [List.getElem?_append_left hcase] at hm
        exact hidx m l hm
      · have hmeq : m = s.glyph_lines.length := by omega
        subst hmeq
        rw [List.getElem?_concat_length] at hm
        cases hm
        exact hy
    have hy' : s.curr_y + line_spacing =
        b.init_y +
          (((s.glyph_lines ++
            [(⟨s.words_in_curr_line, s.curr_y⟩ : GlyphsLine)]).length : Int)) *
            line_spacing := by
      rw [hy, List.length_append]
      simp only [List.length_cons, List.length_nil]
      push_cast
      ring
    rcases lb_step_cases b space_x line_spacing i w s with
        ⟨hh, heq⟩ | ⟨hh, hw, heq⟩ | ⟨hh, hw, heq⟩
    · rw [lb_run, heq]
      by_cases hf : ({s with height_is_overflowed := true} : LBState).height_is_overflowed
      · rw [if_pos hf]
        exact ⟨hy, hidx⟩
      · rw [if_neg hf]
        exact ih (i + 1) { s with height_is_overflowed := true } hy hidx
    · rw [lb_run, heq]
      by_cases hf : s.height_is_overflowed
      · rw [if_pos hf]
        exact ⟨hy', hidx'⟩
      · rw [if_neg hf]
        exact ih (i + 1) _ hy' hidx'
    · rw [lb_run, heq]
      by_cases hf : s.height_is_overflowed
      · rw [if_pos hf]
        exact ⟨hy, hidx⟩
      · rw [if_neg hf]
        exact ih (i + 1) _ hy hidx

/-- C6: the `j`-th output line of `compute_glyph_lines` (0-indexed) has
`y_position = boundary.init_y + j * line_spacing`, so consecutive lines
differ in Y by exactly the line spacing, and for positive line spacing
the Y positions are strictly increasing. -/
theorem compute_glyph_lines_y_positions (b : GlyphsBoundary)
    (space_x line_spacing : Int) (ws : List Int) :
    (∀ (j : Nat) (l : GlyphsLine),
        (compute_glyph_lines b space_x line_spacing ws)[j]? = some l →
        l.y_position = b.init_y + (j : Int) * line_spacing) ∧
    (0 < line_spacing → ∀ (j1 j2 : Nat) (l1 l2 : GlyphsLine), j1 < j2 →
        (compute_glyph_lines b space_x line_spacing ws)[j1]? = some l1 →
        (compute_glyph_lines b space_x line_spacing ws)[j2]? = some l2 →
        l1.y_position < l2.y_position) := by
  obtain ⟨hy, hidx⟩ :=
    lb_run_y_positions b space_x line_spacing ws 0 (lb_init b)
      (by simp [lb_init]) (by intro m l hm; simp [lb_init] at hm)
  have hmain : ∀ (j : Nat) (l : GlyphsLine),
      (compute_glyph_lines b space_x line_spacing ws)[j]? = some l →
      l.y_position = b.init_y + (j : Int) * line_spacing := by
    intro j l hl
    unfold compute_glyph_lines at hl
    by_cases hf :
        (lb_run b space_x line_spacing 0 ws (lb_init b)).height_is_overflowed
    · rw [if_pos hf] at hl
      exact hidx j l hl
    · rw [if_neg hf] at hl
      set L := (lb_run b space_x line_spacing 0 ws (lb_init b)).glyph_lines
      have hjlen : j < L.length + 1 := by
        have h := (List.getElem?_eq_some.mp hl).1
        simpa [List.length_append] using h
      by_cases hcase : j < L.length
      · rw [List.getElem?_append_left hcase] at hl
        exact hidx j l hl
      · have hjeq : j = L.length := by omega
        subst hjeq
        rw [List.getElem?_concat_length] at hl
        cases hl
        exact hy
  refine ⟨hmain, ?_⟩
  intro hls j1 j2 l1 l2 hj h1 h2
  rw [hmain j1 l1 h1, hmain j2 l2 h2]
  have hcast : (j1 : Int) < (j2 : Int) := by exact_mod_cast hj
  have := mul_lt_mul_of_pos_right hcast hls
  omega

theorem compute_glyph_lines_y_positions_witness :
    (compute_glyph_lines ⟨0, 0, 100, 1000⟩ 10 10 [45, 45, 45])[1]? =
      some ⟨[1], 10⟩ ∧
    (10 : Int) = (0 : Int) + (1 : Int) * 10 ∧
    (0 : Int) < 10 ∧ (0 : Int) < 10 :=
  ⟨by decide,
   (compute_glyph_lines_y_positions ⟨0, 0, 100, 1000⟩ 10 10 [45, 45, 45]).1 1
     ⟨[1], 10⟩ (by decide),
   by decide,
   (compute_glyph_lines_y_positions ⟨0, 0, 100, 1000⟩ 10 10 [45, 45, 45]).2
     (by decide) 0 1 ⟨[0], 0⟩ ⟨[1], 10⟩ (by decide) (by decide) (by decide)⟩

/-! ## Claims about the UTF-8 round trip -/

/-- Facts about a 4-byte UTF-8 leading byte `0xF0 ||| t`, `t < 8`, checked
by enumeration. -/
theorem utf8_lead4_facts : ∀ t : Nat, t < 8 →
    ¬(0xF0 ||| t = 0) ∧ ¬((0xF0 ||| t) &&& 0x80 = 0) ∧
    ¬((0xF0 ||| t) &&& 0xE0 = 0xC0) ∧ ¬((0xF0 ||| t) &&& 0xF0 = 0xE0) ∧
    ((0xF0 ||| t) &&& 0xF8 = 0xF0) ∧ ((0xF0 ||| t) &&& 0x07 = t) := by
  decide

/-- A continuation byte `0x80 ||| u`, `u < 64`, masked with `0x3F` gives
back `u`, checked by enumeration. -/
theorem utf8_cont_mask : ∀ u : Nat, u < 64 → (0x80 ||| u) &&& 0x3F = u := by
  decide

/-- Bitwise or of a multiple of `2 ^ n` with a value below `2 ^ n` is
their sum. -/
theorem lor_eq_add_of_mod_eq_zero (x c n : Nat) (hx : x % 2 ^ n = 0)
    (hc : c < 2 ^ n) : x ||| c = x + c := by
  obtain ⟨q, hq⟩ := Nat.dvd_of_mod_eq_zero hx
  subst hq
  apply Nat.eq_of_testBit_eq
  intro i
  rw [Nat.testBit_lor, Nat.testBit_mul_pow_two_add q hc i]
  by_cases h : i < n
  · have h1 : (2 ^ n * q).testBit i = false := by
      rw [mul_comm, ← Nat.shiftLeft_eq, Nat.testBit_shiftLeft]
      simp [Nat.not_le.mpr h]
    simp [h, h1]
  · have h2 : c.testBit i = false :=
      Nat.testBit_lt_two_pow
        (lt_of_lt_of_le hc (Nat.pow_le_pow_right (by norm_num) (by omega)))
    have h3 : (2 ^ n * q).testBit i = q.testBit (i - n) := by
      rw [mul_comm, ← Nat.shiftLeft_eq, Nat.testBit_shiftLeft]
      simp [Nat.le_of_not_lt h]
    simp [h, h2, h3]

/-- Reassembling the four 6/3-bit fields of the 4-byte decode branch of
`utf8_to_utf32` gives back the original scalar. -/
theorem utf8_reassemble (c : Nat) :
    ((c >>> 18) <<< 18) ||| (((c >>> 12) &&& 0x3F) <<< 12) |||
      (((c >>> 6) &&& 0x3F) <<< 6) ||| (c &&& 0x3F) = c := by
  have h63 : (0x3F : Nat) = 2 ^ 6 - 1 := by norm_num
  have hu : (c >>> 12) &&& 0x3F = (c / 2 ^ 12) % 2 ^ 6 := by
    rw [h63, Nat.and_pow_two_sub_one_eq_mod, Nat.shiftRight_eq_div_pow]
  have hv : (c >>> 6) &&& 0x3F = (c / 2 ^ 6) % 2 ^ 6 := by
    rw [h63, Nat.and_pow_two_sub_one_eq_mod, Nat.shiftRight_eq_div_pow]
  have hz : c &&& 0x3F = c % 2 ^ 6 := by
    rw [h63, Nat.and_pow_two_sub_one_eq_mod]
  have ht : c >>> 18 = c / 2 ^ 18 := Nat.shiftRight_eq_div_pow c 18
  rw [Nat.shiftLeft_eq, Nat.shiftLeft_eq, Nat.shiftLeft_eq, ht, hu, hv, hz]
  rw [lor_eq_add_of_mod_eq_zero (c / 2 ^ 18 * 2 ^ 18)
      ((c / 2 ^ 12 % 2 ^ 6) * 2 ^ 12) 18 (by omega)
      (by have := Nat.mod_lt (c / 2 ^ 12) (show 0 < 2^6 by norm_num); omega)]
  rw [lor_eq_add_of_mod_eq_zero _ ((c / 2 ^ 6 % 2 ^ 6) * 2 ^ 6) 12 (by omega)
      (by have := Nat.mod_lt (c / 2 ^ 6) (show 0 < 2^6 by norm_num); omega)]
  rw [lor_eq_add_of_mod_eq_zero _ (c % 2 ^ 6) 6 (by omega)
      (by have := Nat.mod_lt c (show 0 < 2^6 by norm_num); omega)]
  omega

/-- C8: decoding the 4-byte UTF-8 encoding of any Unicode scalar value in
`[U+10000, U+10FFFF]` with `utf8_to_utf32` yields exactly that scalar as
the single decoded codepoint. -/
theorem utf8_to_utf32_roundtrip4 (c : Nat) (h1 : 0x10000 ≤ c)
    (h2 : c ≤ 0x10FFFF) :
    utf8_to_utf32 (utf8_encode4 c ++ [0]) = some [c] := by
  have ht8 : c >>> 18 < 8 := by
    rw [Nat.shiftRight_eq_div_pow]
    omega
  obtain ⟨hb0ne, hm80, hmE0, hmF0, hmF8, hm07⟩ :=
    utf8_lead4_facts (c >>> 18) ht8
  have hu6 : (c >>> 12) &&& 0x3F < 64 := Nat.lt_succ_of_le Nat.and_le_right
  have hv6 : (c >>> 6) &&& 0x3F < 64 := Nat.lt_succ_of_le Nat.and_le_right
  have hz6 : c &&& 0x3F < 64 := Nat.lt_succ_of_le Nat.and_le_right
  have hc1 := utf8_cont_mask _ hu6
  have hc2 := utf8_cont_mask _ hv6
  have hc3 := utf8_cont_mask _ hz6
  have hlen : next_utf8_glyph_length (0xF0 ||| (c >>> 18)) = 4 := by
    unfold next_utf8_glyph_length
    rw [if_neg hm80, if_neg hmE0, if_neg hmF0, if_pos hmF8]
  show utf8_to_utf32_go _ (4 + 1 + 1) 0 [] = some [c]
  rw [utf8_to_utf32_go]
  rw [if_neg (by simp [utf8_encode4])]
  simp only [utf8_encode4, List.cons_append, List.nil_append, Int.toNat_zero,
    List.getD_cons_zero, List.getD_cons_succ]
  rw [if_neg hb0ne]
  simp only [hlen]
  norm_num
  rw [hm07, hc1, hc2, hc3]
  rw [utf8_reassemble c]
  rw [utf8_to_utf32_go]
  rw [if_neg (by norm_num)]
  norm_num [List.getD]
  intro hbad
  exact absurd rfl hbad

theorem utf8_to_utf32_roundtrip4_witness :
    0x10000 ≤ 0x1F600 ∧ 0x1F600 ≤ 0x10FFFF ∧
    utf8_to_utf32 (utf8_encode4 0x1F600 ++ [0]) = some [0x1F600] :=
  ⟨by decide, by decide,
   utf8_to_utf32_roundtrip4 0x1F600 (by decide) (by decide)⟩
